import Mathlib

/-!
Shallow embedding of `src/ctags.py` (class `CTags`): the tag-file parser and
in-memory index of the Serpentarium plugin.  Python strings are Lean `String`
(operated on as `List Char`), the Python dict of tag fields is an association
list with in-place update, Python `None` values are `Option.none`, raised
exceptions are modelled explicitly, and the result of reading the tags file is
an `Option (List String)` (`none` models an `IOError` at `open`).
-/

namespace Ctags

/-- Exceptions the Python code can raise while parsing. -/
inductive PyErr where
  | valueError
  | typeError
  deriving DecidableEq, Repr

/-- Values `CTags.load_file` can return: `False` after an `IOError`, and
`None` when the method falls off its end on the success path. -/
inductive PyVal where
  | noneV
  | falseV
  deriving DecidableEq, Repr

/-- Python truthiness of the values `load_file` can return. -/
def pyTruthy : PyVal → Bool
  | .noneV => false
  | .falseV => false

/-- Characters removed by Python `str.strip()`. -/
def isPySpace (c : Char) : Bool :=
  c == ' ' || c == '\t' || c == '\n' || c == '\r' ||
    c == Char.ofNat 11 || c == Char.ofNat 12

/-- Python `l.strip()` on the characters of a line. -/
def pyStrip (cs : List Char) : List Char :=
  ((cs.dropWhile isPySpace).reverse.dropWhile isPySpace).reverse

/-- Python `s.startswith(p)`: `startsWithB s p` is true when `p` is an
initial segment of `s`. -/
def startsWithB : List Char → List Char → Bool
  | _, [] => true
  | [], _ :: _ => false
  | c :: cs, p :: ps => c == p && startsWithB cs ps

/-- Characters before and after the first occurrence of `sep`, or `none`
when `sep` does not occur. -/
def breakAt (sep : Char) : List Char → Option (List Char × List Char)
  | [] => none
  | c :: cs =>
    if c == sep then some ([], cs)
    else
      match breakAt sep cs with
      | none => none
      | some (pre, post) => some (c :: pre, post)

/-- Python `s.split(sep, maxsplit)`: split on `sep` at most `maxsplit`
times. -/
def splitAtMost (sep : Char) : Nat → List Char → List (List Char)
  | 0, cs => [cs]
  | n + 1, cs =>
    match breakAt sep cs with
    | none => [cs]
    | some (pre, post) => pre :: splitAtMost sep n post

/-- Python `s.split(sep)`: split on every occurrence (at most `cs.length`
splits can ever happen, so the bound never binds). -/
def splitAll (sep : Char) (cs : List Char) : List (List Char) :=
  splitAtMost sep cs.length cs

/-- Value of a list of decimal digits. -/
def digitsVal (cs : List Char) : Nat :=
  cs.foldl (fun acc c => acc * 10 + (c.toNat - '0'.toNat)) 0

/-- Python `int(s)` on a string: surrounding whitespace allowed, optional
sign, then one or more decimal digits; `none` models the `ValueError` raised
on anything else. -/
def pyIntChars (cs : List Char) : Option Int :=
  match pyStrip cs with
  | '+' :: ds => if !ds.isEmpty && ds.all Char.isDigit then some (digitsVal ds : Int) else none
  | '-' :: ds => if !ds.isEmpty && ds.all Char.isDigit then some (-(digitsVal ds : Int)) else none
  | ds => if !ds.isEmpty && ds.all Char.isDigit then some (digitsVal ds : Int) else none

/-- The Python dict of tag fields: field name to value, where a `none` value
models Python `None`. -/
abbrev PyDict := List (String × Option String)

/-- Python `d[k] = v`: replace the value in place when the key exists,
otherwise append. -/
def dictInsert : PyDict → String → Option String → PyDict
  | [], k, v => [(k, v)]
  | (k0, v0) :: d, k, v =>
    if k0 == k then (k, v) :: d else (k0, v0) :: dictInsert d k v

/-- Python `d.get(k)`: `none` when the key is absent. -/
def dictGet : PyDict → String → Option (Option String)
  | [], _ => none
  | (k0, v0) :: d, k => if k0 == k then some v0 else dictGet d k

/-- One parsed tag entry, the tuple
`(tagname, tagfile, int(tagfields.get('line', 0)), tagaddress, tagfields)`
appended to the tags list by `load_file`. -/
structure Tag where
  name : String
  file : String
  line : Int
  address : String
  fields : PyDict
  deriving DecidableEq, Repr

/-- Decode one field token: `key:value` with the empty-value defaulting
(`file` falls back to the record's own file, anything else becomes `None`),
the single-character kind shorthand, or `none` for a malformed token. -/
def parseFieldToken (tagfile : String) (tok : List Char) : Option (String × Option String) :=
  match breakAt ':' tok with
  | some (nm, val) =>
    if val.isEmpty then
      if String.mk nm == "file" then some (String.mk nm, some tagfile)
      else some (String.mk nm, none)
    else some (String.mk nm, some (String.mk val))
  | none =>
    if tok.length == 1 then some ("kind", some (String.mk tok)) else none

/-- The field-parsing loop of `load_file`: build the fields dict in token
order, collecting one diagnostic (the printed message names the whole fields
blob) for each malformed token. -/
def parseFieldsAux (tagfile blob : String) (acc : PyDict) (diags : List String) :
    List (List Char) → PyDict × List String
  | [] => (acc, diags)
  | tok :: toks =>
    match parseFieldToken tagfile tok with
    | some (k, v) => parseFieldsAux tagfile blob (dictInsert acc k v) diags toks
    | none => parseFieldsAux tagfile blob acc (diags ++ [blob]) toks

/-- Fields dict and diagnostics for the fourth tab-separated part of a line
(`if tagfields: ... else tagfields = {}`). -/
def fieldsOf (tagfile rest : List Char) : PyDict × List String :=
  if rest.isEmpty then ([], [])
  else parseFieldsAux (String.mk tagfile) (String.mk rest) [] [] (splitAll '\t' rest)

/-- Translation of `int(tagfields.get('line', 0))`: 0 when the key is absent,
a `TypeError` on `int(None)`, a `ValueError` on a non-numeric string. -/
def lineOf (fields : PyDict) : Except PyErr Int :=
  match dictGet fields "line" with
  | none => .ok 0
  | some none => .error .typeError
  | some (some s) =>
    match pyIntChars s.data with
    | none => .error .valueError
    | some n => .ok n

/-- Build a record from the parts `tag_line.split('\t', 3)` produced.  The
tuple unpacking raises a `ValueError` unless there are exactly four parts
(with `maxsplit=3` there are never more than four). -/
def parseParts (parts : List (List Char)) : Except PyErr (Tag × List String) :=
  match parts with
  | [nm, fl, ad, rest] =>
    match lineOf (fieldsOf fl rest).1 with
    | .error e => .error e
    | .ok n =>
      .ok (⟨String.mk nm, String.mk fl, n, String.mk ad, (fieldsOf fl rest).1⟩,
        (fieldsOf fl rest).2)
  | _ => .error .valueError

/-- Decode one stripped, non-skipped tag line into a record plus its
diagnostics. -/
def parseTagLine (l : List Char) : Except PyErr (Tag × List String) :=
  parseParts (splitAtMost '\t' 3 l)

/-- The loop skips empty lines and ctags comments starting with `!_`. -/
def skipLineB (l : List Char) : Bool :=
  l.isEmpty || startsWithB l ['!', '_']

/-- The main loop of `load_file` over the stripped lines of the file. -/
def processLines : List (List Char) → Except PyErr (List Tag × List String)
  | [] => .ok ([], [])
  | l :: ls =>
    if skipLineB l then processLines ls
    else
      match parseTagLine l with
      | .error e => .error e
      | .ok (t, d) =>
        match processLines ls with
        | .error e => .error e
        | .ok (ts, ds) => .ok (t :: ts, d ++ ds)

/-- Everything one call of `load_file` does: return a value together with the
new `_tags` state and the diagnostics printed, or let an exception propagate
(in which case `self._tags = tags` was never reached). -/
inductive LoadOutcome where
  | ret (v : PyVal) (st : Option (List Tag)) (diags : List String)
  | raised (e : PyErr) (st : Option (List Tag))
  deriving DecidableEq, Repr

/-- Translation of `CTags.load_file`.  `st` is the current `self._tags`;
`file` is the outcome of reading the tags file, `none` modelling the
`IOError` caught by the `except` clause, which returns `False`.  On success
the method falls off its end, returning `None`, with `_tags` replaced. -/
def load_file (st : Option (List Tag)) (file : Option (List String)) : LoadOutcome :=
  match file with
  | none => .ret .falseV st []
  | some ls =>
    match processLines (ls.map fun s => pyStrip s.data) with
    | .error e => .raised e st
    | .ok (tags, ds) => .ret .noneV (some tags) ds

/-- The scanning loop of `get_definitions`: collect records whose name equals
`symbol` and break at the first non-match after a match was found. -/
def scanDefs (symbol : String) : Bool → List Tag → List Tag
  | _, [] => []
  | found, t :: ts =>
    if t.name == symbol then t :: scanDefs symbol true ts
    else if found then []
    else scanDefs symbol found ts

/-- Translation of `CTags.get_definitions`: with no symbol it returns
`self._tags` itself (which may still be the `None` marker); with a symbol it
iterates `self._tags`, raising a `TypeError` when that is `None`. -/
def get_definitions (st : Option (List Tag)) (symbol : Option String) :
    Except PyErr (Option (List Tag)) :=
  match symbol with
  | none => .ok st
  | some s =>
    match st with
    | none => .error .typeError
    | some tags => .ok (some (scanDefs s false tags))

/-- Python string comparison `x < y` (lexicographic by character). -/
def listLtB : List Char → List Char → Bool
  | [], [] => false
  | [], _ :: _ => true
  | _ :: _, [] => false
  | a :: as, b :: bs => if a < b then true else if b < a then false else listLtB as bs

/-- Python tuple comparison `x <= y` on the `(name, name)` pairs sorted by
`autocomplete`. -/
def pairLeB (x y : String × String) : Bool :=
  if listLtB x.1.data y.1.data then true
  else if listLtB y.1.data x.1.data then false
  else !listLtB y.2.data x.2.data

/-- The order `completions.sort()` sorts by, as a relation. -/
def pyPairLe (x y : String × String) : Prop := pairLeB x y = true

instance : DecidableRel pyPairLe := fun x y => instDecidableEqBool (pairLeB x y) true

/-- The scanning loop of `autocomplete`: `completions.append([tag[0]])` for a
contiguous run of names starting with the given characters, breaking at the
first non-match after a match. -/
def scanNames (p : String) : Bool → List Tag → List (List String)
  | _, [] => []
  | found, t :: ts =>
    if startsWithB t.name.data p.data then [t.name] :: scanNames p true ts
    else if found then []
    else scanNames p found ts

/-- The completions list `autocomplete` builds: flatten the singleton lists
into `(i, i)` pairs, deduplicate (`list(set(completions))`) and sort.  The
set's iteration order is unspecified, but after `completions.sort()` the
result is the sorted enumeration of the distinct pairs, which is what
sorting the duplicate-free `dedup` produces. -/
def autocompleteList (tags : List Tag) (p : String) : List (String × String) :=
  let pairs := ((scanNames p false tags).flatten).map fun i => (i, i)
  List.insertionSort pyPairLe pairs.dedup

/-- Translation of `CTags.autocomplete`: iterating `self._tags` raises a
`TypeError` when it is still the `None` marker. -/
def autocomplete (st : Option (List Tag)) (p : String) :
    Except PyErr (List (String × String)) :=
  match st with
  | none => .error .typeError
  | some tags => .ok (autocompleteList tags p)

/-- Translation of `CTags.__init__`: `self._tags` starts as the `None`
marker; when a tags file is given, `load_file` runs immediately and the state
is whatever it leaves behind. -/
def ctags_init (file : Option (Option (List String))) : Option (List Tag) :=
  match file with
  | none => none
  | some contents =>
    match load_file none contents with
    | .ret _ st _ => st
    | .raised _ st => st

/-- Python string comparison `x <= y`. -/
def strLeB (x y : String) : Bool := !listLtB y.data x.data

/-- Common shape of the two query loops: collect the elements satisfying `P`,
breaking at the first failure after a success (`found` is the flag both loops
keep). -/
def scanRun (P : Tag → Bool) : Bool → List Tag → List Tag
  | _, [] => []
  | found, t :: ts =>
    if P t then t :: scanRun P true ts
    else if found then []
    else scanRun P found ts

/-- The resident collection is sorted by tag name, the upstream generator's
order that both query scans rely on. -/
def sortedByName (tags : List Tag) : Prop :=
  List.Pairwise (fun a b => strLeB a.name b.name = true) tags

theorem char_eq_of_not_lt {a b : Char} (h1 : ¬ a < b) (h2 : ¬ b < a) : a = b := by
  rcases lt_trichotomy a b with h | h | h
  · exact absurd h h1
  · exact h
  · exact absurd h h2

theorem listLtB_irrefl : ∀ l : List Char, listLtB l l = false
  | [] => rfl
  | a :: as => by simp [listLtB, listLtB_irrefl as]

theorem listLtB_connex : ∀ {x y : List Char}, listLtB x y = false → listLtB y x = false → x = y
  | [], [], _, _ => rfl
  | [], _ :: _, h1, _ => by simp [listLtB] at h1
  | _ :: _, [], _, h2 => by simp [listLtB] at h2
  | a :: as, b :: bs, h1, h2 => by
    simp only [listLtB] at h1 h2
    by_cases hab : a < b
    · simp [hab] at h1
    · by_cases hba : b < a
      · simp [hab, hba] at h2
      · simp only [if_neg hab, if_neg hba] at h1 h2
        rw [char_eq_of_not_lt hab hba, listLtB_connex h1 h2]

theorem listLtB_trans : ∀ {x y z : List Char},
    listLtB x y = true → listLtB y z = true → listLtB x z = true
  | [], y, _ :: _, _, _ => by simp [listLtB]
  | [], y, [], _, h2 => by cases y <;> simp [listLtB] at h2
  | _ :: _, [], _, h1, _ => by simp [listLtB] at h1
  | _ :: _, _ :: _, [], _, h2 => by simp [listLtB] at h2
  | a :: as, b :: bs, c :: cs, h1, h2 => by
    simp only [listLtB] at h1 h2 ⊢
    by_cases hab : a < b <;> by_cases hbc : b < c
    · simp [lt_trans hab hbc]
    · simp only [if_neg hbc] at h2
      by_cases hcb : c < b
      · simp [hcb] at h2
      · rw [char_eq_of_not_lt hbc hcb] at hab
        simp [hab]
    · simp only [if_neg hab] at h1
      by_cases hba : b < a
      · simp [hba] at h1
      · rw [← char_eq_of_not_lt hab hba] at hbc
        simp [hbc]
    · simp only [if_neg hab] at h1
      simp only [if_neg hbc] at h2
      by_cases hba : b < a
      · simp [hba] at h1
      · by_cases hcb : c < b
        · simp [hcb] at h2
        · simp only [if_neg hba] at h1
          simp only [if_neg hcb] at h2
          have hac : a = c := (char_eq_of_not_lt hab hba).trans (char_eq_of_not_lt hbc hcb)
          subst hac
          simp only [lt_irrefl, if_false]
          exact listLtB_trans h1 h2

theorem listLtB_asymm {x y : List Char} (h : listLtB x y = true) : listLtB y x = false := by
  cases hyx : listLtB y x with
  | false => rfl
  | true =>
    have hx := listLtB_trans h hyx
    rw [listLtB_irrefl] at hx
    simp at hx

theorem listLtB_le_trans {x y z : List Char}
    (h1 : listLtB y x = false) (h2 : listLtB z y = false) : listLtB z x = false := by
  cases hzx : listLtB z x with
  | false => rfl
  | true =>
    cases hxy : listLtB x y with
    | true => simp [listLtB_trans hzx hxy] at h2
    | false =>
      rw [← listLtB_connex hxy h1] at h2
      rw [hzx] at h2
      exact h2

theorem string_data_inj {x y : String} (h : x.data = y.data) : x = y := by
  cases x
  cases y
  exact congrArg String.mk h

theorem startsWithB_interval : ∀ (p a b c : List Char),
    startsWithB a p = true → startsWithB c p = true →
    listLtB b a = false → listLtB c b = false → startsWithB b p = true
  | [], _, b, _, _, _, _, _ => by cases b <;> rfl
  | x :: ps, a, b, c, ha, hc, hba, hcb => by
    cases a with
    | nil => simp [startsWithB] at ha
    | cons a0 as =>
      cases c with
      | nil => simp [startsWithB] at hc
      | cons c0 cs =>
        simp only [startsWithB, Bool.and_eq_true, beq_iff_eq] at ha hc
        obtain ⟨ha0, has⟩ := ha
        obtain ⟨hc0, hcs⟩ := hc
        cases b with
        | nil => simp [listLtB] at hba
        | cons b0 bs =>
          simp only [listLtB] at hba hcb
          rw [ha0] at hba
          rw [hc0] at hcb
          by_cases h1 : b0 < x
          · simp [h1] at hba
          · by_cases h2 : x < b0
            · simp [h2] at hcb
            · simp only [if_neg h1, if_neg h2] at hba
              simp only [if_neg h2, if_neg h1] at hcb
              simp only [startsWithB, Bool.and_eq_true, beq_iff_eq]
              exact ⟨char_eq_of_not_lt h1 h2,
                startsWithB_interval ps as bs cs has hcs hba hcb⟩

theorem scanRun_sublist (P : Tag → Bool) : ∀ (f : Bool) (l : List Tag),
    (scanRun P f l).Sublist l
  | _, [] => List.Sublist.refl []
  | f, t :: ts => by
    simp only [scanRun]
    by_cases h : P t = true
    · simp only [if_pos h]
      exact List.Sublist.cons₂ t (scanRun_sublist P true ts)
    · simp only [if_neg h]
      cases f
      · simp only [Bool.false_eq_true, if_false]
        exact (scanRun_sublist P false ts).cons t
      · exact List.nil_sublist _

theorem scanRun_mem (P : Tag → Bool) : ∀ (f : Bool) (l : List Tag) (t : Tag),
    t ∈ scanRun P f l → P t = true
  | _, [], _, h => by simp [scanRun] at h
  | f, u :: ts, t, h => by
    simp only [scanRun] at h
    by_cases hu : P u = true
    · simp only [if_pos hu, List.mem_cons] at h
      rcases h with h | h
      · rw [h]; exact hu
      · exact scanRun_mem P true ts t h
    · simp only [if_neg hu] at h
      cases f
      · simp only [Bool.false_eq_true, if_false] at h
        exact scanRun_mem P false ts t h
      · simp at h

theorem scanRun_all (P : Tag → Bool) : ∀ (f : Bool) (l : List Tag),
    (∀ t ∈ l, P t = true) → scanRun P f l = l
  | _, [], _ => rfl
  | f, t :: ts, h => by
    simp only [scanRun, if_pos (h t (List.mem_cons_self t ts))]
    rw [scanRun_all P true ts fun u hu => h u (List.mem_cons_of_mem t hu)]

theorem scanRun_true_filter (P : Tag → Bool)
    (hP : ∀ a b c : Tag, P a = true → P c = true →
      strLeB a.name b.name = true → strLeB b.name c.name = true → P b = true) :
    ∀ (l : List Tag) (a : Tag), P a = true → (∀ u ∈ l, strLeB a.name u.name = true) →
      List.Pairwise (fun x y => strLeB x.name y.name = true) l →
      scanRun P true l = l.filter P
  | [], _, _, _, _ => rfl
  | t :: ts, a, hPa, hal, hsort => by
    rw [List.pairwise_cons] at hsort
    by_cases ht : P t = true
    · simp only [scanRun, if_pos ht, List.filter_cons_of_pos ht]
      rw [scanRun_true_filter P hP ts a hPa
        (fun u hu => hal u (List.mem_cons_of_mem t hu)) hsort.2]
    · simp only [scanRun, if_neg ht, if_pos rfl]
      have hnone : ∀ u ∈ t :: ts, ¬ P u = true := by
        intro u hu
        rcases List.mem_cons.mp hu with h | h
        · rw [h]; exact ht
        · intro hPu
          exact ht (hP a t u hPa hPu (hal t (List.mem_cons_self t ts)) (hsort.1 u h))
      rw [List.filter_eq_nil_iff.mpr fun u hu => by simpa using hnone u hu]
      simp

theorem scanRun_false_filter (P : Tag → Bool)
    (hP : ∀ a b c : Tag, P a = true → P c = true →
      strLeB a.name b.name = true → strLeB b.name c.name = true → P b = true) :
    ∀ l : List Tag, List.Pairwise (fun x y => strLeB x.name y.name = true) l →
      scanRun P false l = l.filter P
  | [], _ => rfl
  | t :: ts, hsort => by
    rw [List.pairwise_cons] at hsort
    by_cases ht : P t = true
    · simp only [scanRun, if_pos ht, List.filter_cons_of_pos ht]
      rw [scanRun_true_filter P hP ts t ht hsort.1 hsort.2]
    · simp only [scanRun, if_neg ht, Bool.false_eq_true, if_false,
        List.filter_cons_of_neg (by simpa using ht)]
      exact scanRun_false_filter P hP ts hsort.2

theorem scanDefs_eq_scanRun (s : String) : ∀ (f : Bool) (l : List Tag),
    scanDefs s f l = scanRun (fun t => t.name == s) f l
  | _, [] => rfl
  | f, t :: ts => by
    simp only [scanDefs, scanRun, scanDefs_eq_scanRun s true ts,
      scanDefs_eq_scanRun s f ts]

theorem scanNames_flatten (p : String) : ∀ (f : Bool) (l : List Tag),
    (scanNames p f l).flatten =
      (scanRun (fun t => startsWithB t.name.data p.data) f l).map (fun t => t.name)
  | _, [] => rfl
  | f, t :: ts => by
    simp only [scanNames, scanRun]
    by_cases h : startsWithB t.name.data p.data = true
    · simp only [if_pos h, List.flatten_cons, List.map_cons,
        scanNames_flatten p true ts, List.singleton_append]
    · simp only [if_neg h]
      cases f
      · simp only [Bool.false_eq_true, if_false]
        exact scanNames_flatten p false ts
      · simp

theorem pairLeB_iff {x y : String × String} : pairLeB x y = true ↔
    (listLtB x.1.data y.1.data = true ∨
      (x.1.data = y.1.data ∧ listLtB y.2.data x.2.data = false)) := by
  unfold pairLeB
  by_cases h1 : listLtB x.1.data y.1.data = true
  · simp [h1]
  · rw [if_neg h1]
    by_cases h2 : listLtB y.1.data x.1.data = true
    · rw [if_pos h2]
      simp only [Bool.false_eq_true, false_iff]
      rintro (h | ⟨he, _⟩)
      · exact h1 h
      · rw [he, listLtB_irrefl] at h2
        simp at h2
    · rw [if_neg h2]
      have he : x.1.data = y.1.data :=
        listLtB_connex (by simpa using h1) (by simpa using h2)
      rw [Bool.not_eq_true']
      constructor
      · intro h
        exact Or.inr ⟨he, h⟩
      · rintro (h | ⟨_, h⟩)
        · exact absurd h h1
        · exact h

theorem pairLeB_total (x y : String × String) : pairLeB x y = true ∨ pairLeB y x = true := by
  by_cases h1 : listLtB x.1.data y.1.data = true
  · exact Or.inl (pairLeB_iff.mpr (Or.inl h1))
  · by_cases h2 : listLtB y.1.data x.1.data = true
    · exact Or.inr (pairLeB_iff.mpr (Or.inl h2))
    · have he : x.1.data = y.1.data :=
        listLtB_connex (by simpa using h1) (by simpa using h2)
      cases hlt : listLtB y.2.data x.2.data with
      | false => exact Or.inl (pairLeB_iff.mpr (Or.inr ⟨he, hlt⟩))
      | true => exact Or.inr (pairLeB_iff.mpr (Or.inr ⟨he.symm, listLtB_asymm hlt⟩))

theorem pairLeB_trans {x y z : String × String}
    (h1 : pairLeB x y = true) (h2 : pairLeB y z = true) : pairLeB x z = true := by
  rcases pairLeB_iff.mp h1 with ha | ⟨hae, hal⟩ <;>
    rcases pairLeB_iff.mp h2 with hb | ⟨hbe, hbl⟩
  · exact pairLeB_iff.mpr (Or.inl (listLtB_trans ha hb))
  · exact pairLeB_iff.mpr (Or.inl (hbe ▸ ha))
  · exact pairLeB_iff.mpr (Or.inl (hae ▸ hb))
  · exact pairLeB_iff.mpr (Or.inr ⟨hae.trans hbe, listLtB_le_trans hal hbl⟩)

theorem processLines_error_of_mem : ∀ {ls : List (List Char)} {l : List Char} {e : PyErr},
    l ∈ ls → skipLineB l = false → parseTagLine l = .error e →
    ∃ e2, processLines ls = .error e2
  | l0 :: ls, l, e, hmem, hskip, hp => by
    rcases List.mem_cons.mp hmem with heq | hmem2
    · subst heq
      simp only [processLines, hskip, Bool.false_eq_true, if_false, hp]
      exact ⟨e, rfl⟩
    · by_cases hs : skipLineB l0 = true
      · obtain ⟨e2, h2⟩ := processLines_error_of_mem hmem2 hskip hp
        exact ⟨e2, by simp only [processLines, hs, if_true, h2]⟩
      · cases hp0 : parseTagLine l0 with
        | error e0 =>
          refine ⟨e0, ?_⟩
          simp only [processLines, hs, Bool.false_eq_true, if_false, hp0]
        | ok td =>
          obtain ⟨e2, h2⟩ := processLines_error_of_mem hmem2 hskip hp
          refine ⟨e2, ?_⟩
          simp only [processLines, hs, Bool.false_eq_true, if_false, hp0, h2]

theorem processLines_length : ∀ {ls : List (List Char)} {ts : List Tag} {ds : List String},
    processLines ls = .ok (ts, ds) →
    ts.length = (ls.filter fun l => !skipLineB l).length
  | [], ts, ds, h => by
    simp only [processLines, Except.ok.injEq, Prod.mk.injEq] at h
    simp [← h.1]
  | l :: ls, ts, ds, h => by
    by_cases hs : skipLineB l = true
    · simp only [processLines, hs, if_true] at h
      simpa [hs] using processLines_length h
    · simp only [processLines, hs, Bool.false_eq_true, if_false] at h
      cases hp : parseTagLine l with
      | error e => rw [hp] at h; cases h
      | ok td =>
        rw [hp] at h
        cases hrec : processLines ls with
        | error e => rw [hrec] at h; cases h
        | ok tsds =>
          obtain ⟨ts0, ds0⟩ := tsds
          rw [hrec] at h
          simp only [Except.ok.injEq, Prod.mk.injEq] at h
          have hlen : ts0.length = (ls.filter fun l2 => !skipLineB l2).length :=
            processLines_length hrec
          simp only [← h.1, List.filter_cons, Bool.not_eq_true', hs, if_true,
            List.length_cons]
          rw [hlen]

theorem load_file_some_inv {st : Option (List Tag)} {lines : List String}
    {tags : List Tag} {ds : List String}
    (h : load_file st (some lines) = .ret .noneV (some tags) ds) :
    processLines (lines.map fun s => pyStrip s.data) = .ok (tags, ds) := by
  cases hp : processLines (lines.map fun s => pyStrip s.data) with
  | error e =>
    simp only [load_file, hp] at h
    cases h
  | ok tsds =>
    obtain ⟨ts0, ds0⟩ := tsds
    simp only [load_file, hp, LoadOutcome.ret.injEq, Option.some.injEq, true_and] at h
    rw [h.1, h.2]

theorem load_file_raises {st : Option (List Tag)} {lines : List String} {l : List Char}
    {e0 : PyErr} (hmem : l ∈ lines.map fun s => pyStrip s.data)
    (hskip : skipLineB l = false) (hp : parseTagLine l = .error e0) :
    ∃ e, load_file st (some lines) = .raised e st := by
  obtain ⟨e2, h2⟩ := processLines_error_of_mem hmem hskip hp
  exact ⟨e2, by simp only [load_file, h2]⟩

theorem load_file_some_cases (st : Option (List Tag)) (lines : List String) :
    (∃ e, load_file st (some lines) = .raised e st) ∨
    ∃ tags ds, load_file st (some lines) = .ret .noneV (some tags) ds := by
  cases hp : processLines (lines.map fun s => pyStrip s.data) with
  | error e => exact Or.inl ⟨e, by simp only [load_file, hp]⟩
  | ok tsds =>
    obtain ⟨ts0, ds0⟩ := tsds
    exact Or.inr ⟨ts0, ds0, by simp only [load_file, hp]⟩

theorem lineOf_ok {fields : PyDict} {n : Int} (h : lineOf fields = .ok n) :
    (dictGet fields "line" = none → n = 0) ∧
    ∀ s, dictGet fields "line" = some (some s) → pyIntChars s.data = some n := by
  cases hg : dictGet fields "line" with
  | none =>
    have hl : lineOf fields = Except.ok 0 := by
      unfold lineOf
      rw [hg]
    rw [hl] at h
    refine ⟨fun _ => ?_, fun s hs => absurd hs (by simp [hg])⟩
    injection h with h2
    exact h2.symm
  | some v =>
    cases v with
    | none =>
      have hl : lineOf fields = Except.error PyErr.typeError := by
        unfold lineOf
        rw [hg]
      rw [hl] at h
      cases h
    | some s0 =>
      cases hi : pyIntChars s0.data with
      | none =>
        have hl : lineOf fields = Except.error PyErr.valueError := by
          unfold lineOf
          rw [hg]
          show (match pyIntChars s0.data with
            | none => Except.error PyErr.valueError
            | some n => Except.ok n) = Except.error PyErr.valueError
          rw [hi]
        rw [hl] at h
        cases h
      | some m =>
        have hl : lineOf fields = Except.ok m := by
          unfold lineOf
          rw [hg]
          show (match pyIntChars s0.data with
            | none => Except.error PyErr.valueError
            | some n => Except.ok n) = Except.ok m
          rw [hi]
        rw [hl] at h
        injection h with h2
        subst h2
        refine ⟨fun hn => absurd hn (by simp [hg]), fun s hs => ?_⟩
        simp only [hg, Option.some.injEq] at hs
        subst hs
        exact hi

theorem parseTagLine_ok_inv {l : List Char} {t : Tag} {d : List String}
    (h : parseTagLine l = .ok (t, d)) : lineOf t.fields = .ok t.line := by
  unfold parseTagLine parseParts at h
  split at h
  · split at h
    · cases h
    · rename_i n heq2
      simp only [Except.ok.injEq, Prod.mk.injEq] at h
      rw [← h.1]
      exact heq2
  · cases h

theorem parseParts_short : ∀ {parts : List (List Char)}, parts.length < 4 →
    parseParts parts = .error .valueError := by
  intro parts h
  rcases parts with _ | ⟨a, _ | ⟨b, _ | ⟨c, _ | ⟨d, rest⟩⟩⟩⟩
  · rfl
  · rfl
  · rfl
  · rfl
  · simp only [List.length_cons] at h
    omega

theorem breakAt_append_sep {key : List Char} (h : breakAt ':' key = none) :
    breakAt ':' (key ++ [':']) = some (key, []) := by
  induction key with
  | nil => rfl
  | cons c cs ih =>
    simp only [breakAt] at h
    by_cases hc : c == ':'
    · rw [if_pos hc] at h
      cases h
    · rw [if_neg hc] at h
      have hcs : breakAt ':' cs = none := by
        cases hb : breakAt ':' cs with
        | none => rfl
        | some pq => rw [hb] at h; cases h
      rw [List.cons_append]
      simp only [breakAt, if_neg hc]
      rw [ih hcs]

theorem parseFieldsAux_diags (tagfile blob : String) :
    ∀ (toks : List (List Char)) (acc : PyDict) (diags : List String),
      (parseFieldsAux tagfile blob acc diags toks).2 =
        diags ++ (toks.filter fun tok => (parseFieldToken tagfile tok).isNone).map (fun _ => blob)
  | [], acc, diags => by simp [parseFieldsAux]
  | tok :: toks, acc, diags => by
    cases hp : parseFieldToken tagfile tok with
    | some kv =>
      simp only [parseFieldsAux, hp, List.filter_cons, Option.isNone_some,
        Bool.false_eq_true, if_false]
      exact parseFieldsAux_diags tagfile blob toks (dictInsert acc kv.1 kv.2) diags
    | none =>
      simp only [parseFieldsAux, hp, List.filter_cons, Option.isNone_none, if_true,
        List.map_cons]
      rw [parseFieldsAux_diags tagfile blob toks acc (diags ++ [blob])]
      simp

theorem parseFieldsAux_fields (tagfile blob : String) :
    ∀ (toks : List (List Char)) (acc : PyDict) (diags diags2 : List String),
      (parseFieldsAux tagfile blob acc diags toks).1 =
        (parseFieldsAux tagfile blob acc diags2
          (toks.filter fun tok => (parseFieldToken tagfile tok).isSome)).1
  | [], acc, diags, diags2 => by simp [parseFieldsAux]
  | tok :: toks, acc, diags, diags2 => by
    cases hp : parseFieldToken tagfile tok with
    | some kv =>
      simp only [parseFieldsAux, hp, List.filter_cons, Option.isSome_some, if_true]
      exact parseFieldsAux_fields tagfile blob toks (dictInsert acc kv.1 kv.2) diags diags2
    | none =>
      simp only [parseFieldsAux, hp, List.filter_cons, Option.isSome_none,
        Bool.false_eq_true, if_false]
      exact parseFieldsAux_fields tagfile blob toks acc (diags ++ [blob]) diags2

theorem startsWithB_nil (s : List Char) : startsWithB s [] = true := by
  cases s <;> rfl

theorem strLeB_iff {x y : String} : strLeB x y = true ↔ listLtB y.data x.data = false := by
  simp [strLeB, Bool.not_eq_true']

theorem mem_autocompleteList {tags : List Tag} {p : String} {q : String × String} :
    q ∈ autocompleteList tags p ↔
      ∃ t, t ∈ scanRun (fun t => startsWithB t.name.data p.data) false tags ∧ q = (t.name, t.name) := by
  unfold autocompleteList
  rw [(List.perm_insertionSort pyPairLe _).mem_iff, List.mem_dedup, scanNames_flatten,
    List.mem_map]
  constructor
  · rintro ⟨n, hn, rfl⟩
    rw [List.mem_map] at hn
    obtain ⟨t, ht, rfl⟩ := hn
    exact ⟨t, ht, rfl⟩
  · rintro ⟨t, ht, rfl⟩
    exact ⟨t.name, List.mem_map.mpr ⟨t, ht, rfl⟩, rfl⟩

/-- C1 (amended): a tag line (non-empty, not a `!_` comment after stripping)
with fewer than four tab-separated parts makes the tuple unpacking in
`load_file` raise an uncaught `ValueError`: the whole load aborts with
`self._tags` unchanged, instead of the line being skipped. -/
theorem short_line_aborts_load (st : Option (List Tag)) (lines : List String)
    (l : List Char) (hmem : l ∈ lines.map fun s => pyStrip s.data)
    (hskip : skipLineB l = false)
    (hshort : (splitAtMost '\t' 3 l).length < 4) :
    ∃ e, load_file st (some lines) = .raised e st := by
  have hp : parseTagLine l = .error .valueError := by
    unfold parseTagLine
    exact parseParts_short hshort
  exact load_file_raises hmem hskip hp

/-- Witness for C1 at the concrete file `["a\tb"]`. -/
theorem short_line_aborts_load_witness :
    ∃ e, load_file none (some ["a\tb"]) = .raised e none :=
  short_line_aborts_load none ["a\tb"] (pyStrip "a\tb".data)
    (by simp) (by decide) (by decide)

/-- C1 counterexample: on a file whose first line has only two tab-separated
parts, `load_file` raises instead of skipping the line and parsing the valid
second line; the resident collection stays the `None` marker. -/
theorem short_line_abort_cex :
    load_file none (some ["a\tb", "x\ty\tz\tk:v"]) = .raised .valueError none := by
  decide

/-- C2: `get_definitions(symbol)` returns exactly the contiguous-run scan
result; every returned record's name equals the symbol (exact, case
sensitive), the result is a sublist of the resident collection (original
relative order), and when that collection is sorted by name no matching
record is omitted: the result is the full filter. -/
theorem get_definitions_exact (tags : List Tag) (symbol : String) :
    get_definitions (some tags) (some symbol) = .ok (some (scanDefs symbol false tags)) ∧
    (∀ t ∈ scanDefs symbol false tags, t.name = symbol) ∧
    (scanDefs symbol false tags).Sublist tags ∧
    (sortedByName tags →
      scanDefs symbol false tags = tags.filter fun t => t.name == symbol) := by
  refine ⟨rfl, ?_, ?_, ?_⟩
  · intro t ht
    rw [scanDefs_eq_scanRun] at ht
    have hb := scanRun_mem _ _ _ _ ht
    simpa using hb
  · rw [scanDefs_eq_scanRun]
    exact scanRun_sublist _ _ _
  · intro hsort
    unfold sortedByName at hsort
    rw [scanDefs_eq_scanRun]
    refine scanRun_false_filter _ ?_ tags hsort
    intro a b c ha hc hab hbc
    rw [beq_iff_eq] at ha hc ⊢
    have h1 := strLeB_iff.mp hab
    have h2 := strLeB_iff.mp hbc
    rw [ha] at h1
    rw [hc] at h2
    exact string_data_inj (listLtB_connex h1 h2)

/-- C3: `autocomplete` returns the duplicate-free, lexicographically sorted
list of `(name, name)` pairs built from the contiguous-run scan; every
returned name starts with the given characters; when the collection is
sorted by name, a pair is returned exactly for each distinct matching name;
an empty argument matches every name. -/
theorem autocomplete_props (tags : List Tag) (p : String) :
    autocomplete (some tags) p = .ok (autocompleteList tags p) ∧
    (autocompleteList tags p).Nodup ∧
    List.Sorted pyPairLe (autocompleteList tags p) ∧
    (∀ q ∈ autocompleteList tags p, q.2 = q.1 ∧ startsWithB q.1.data p.data = true) ∧
    (sortedByName tags → ∀ n : String,
      (n, n) ∈ autocompleteList tags p ↔
        ∃ t ∈ tags, t.name = n ∧ startsWithB n.data p.data = true) ∧
    (p = "" → ∀ t ∈ tags, (t.name, t.name) ∈ autocompleteList tags p) := by
  have hPb : ∀ a b c : Tag,
      startsWithB a.name.data p.data = true → startsWithB c.name.data p.data = true →
      strLeB a.name b.name = true → strLeB b.name c.name = true →
      startsWithB b.name.data p.data = true := by
    intro a b c ha hc hab hbc
    exact startsWithB_interval p.data a.name.data b.name.data c.name.data ha hc
      (strLeB_iff.mp hab) (strLeB_iff.mp hbc)
  refine ⟨rfl, ?_, ?_, ?_, ?_, ?_⟩
  · exact ((List.perm_insertionSort pyPairLe _).nodup_iff).mpr (List.nodup_dedup _)
  · haveI : IsTotal (String × String) pyPairLe := ⟨pairLeB_total⟩
    haveI : IsTrans (String × String) pyPairLe := ⟨fun _ _ _ hab hbc => pairLeB_trans hab hbc⟩
    exact List.sorted_insertionSort pyPairLe _
  · intro q hq
    obtain ⟨t, ht, rfl⟩ := mem_autocompleteList.mp hq
    exact ⟨rfl, scanRun_mem _ _ _ _ ht⟩
  · intro hsort n
    unfold sortedByName at hsort
    rw [mem_autocompleteList,
      scanRun_false_filter (fun t => startsWithB t.name.data p.data) hPb tags hsort]
    constructor
    · rintro ⟨t, ht, hq⟩
      rw [List.mem_filter] at ht
      simp only [Prod.mk.injEq] at hq
      obtain ⟨hq1, -⟩ := hq
      exact ⟨t, ht.1, hq1.symm, hq1.symm ▸ ht.2⟩
    · rintro ⟨t, ht, hname, hstart⟩
      refine ⟨t, List.mem_filter.mpr ⟨ht, by rw [hname]; exact hstart⟩, by rw [hname]⟩
  · intro hp t ht
    subst hp
    rw [mem_autocompleteList]
    refine ⟨t, ?_, rfl⟩
    rw [scanRun_all _ _ _ fun u _ => startsWithB_nil u.name.data]
    exact ht

/-- C4 (amended): a parsed record's `line` attribute is the integer parse of
`fields['line']` when present and numeric, and 0 when the field is absent;
but when `fields['line']` is present and not parseable as an integer, the
record's parse raises a `ValueError` and the whole load aborts with the
resident collection unchanged -- the remaining lines are not loaded. -/
theorem line_field_attr_or_abort :
    (∀ (l : List Char) (t : Tag) (d : List String), parseTagLine l = .ok (t, d) →
      (dictGet t.fields "line" = none → t.line = 0) ∧
      (∀ s, dictGet t.fields "line" = some (some s) → pyIntChars s.data = some t.line)) ∧
    (∀ (l nm fl ad rest : List Char) (s : String),
      splitAtMost '\t' 3 l = [nm, fl, ad, rest] →
      dictGet (fieldsOf fl rest).1 "line" = some (some s) →
      pyIntChars s.data = none →
      parseTagLine l = .error .valueError) ∧
    (∀ (st : Option (List Tag)) (lines : List String) (l : List Char) (e0 : PyErr),
      l ∈ lines.map (fun s => pyStrip s.data) → skipLineB l = false →
      parseTagLine l = .error e0 →
      ∃ e, load_file st (some lines) = .raised e st) := by
  refine ⟨fun l t d h => lineOf_ok (parseTagLine_ok_inv h), ?_,
    fun st lines l e0 hm hs hp => load_file_raises hm hs hp⟩
  intro l nm fl ad rest s hsplit hget hbad
  have hl : lineOf (fieldsOf fl rest).1 = .error .valueError := by
    unfold lineOf
    rw [hget]
    show (match pyIntChars s.data with
      | none => Except.error PyErr.valueError
      | some n => Except.ok n) = Except.error PyErr.valueError
    rw [hbad]
  unfold parseTagLine
  rw [hsplit]
  simp only [parseParts]
  rw [hl]

/-- C4 counterexample: a non-numeric `line:` field on the first line makes
`load_file` raise, so the valid second line is never loaded -- the claim's
"at most that one record fails" does not hold. -/
theorem bad_line_field_abort_cex :
    load_file none (some ["a\tf\taddr\tline:xx", "b\tg\th\tkind:v"]) =
      .raised .valueError none := by
  decide

/-- C5: when the tag file cannot be read, `load_file` returns `False`
without raising and leaves the resident collection in its prior state
(still the `None` marker when nothing was ever loaded). -/
theorem load_failure_keeps_state : ∀ st : Option (List Tag),
    load_file st none = .ret .falseV st [] ∧
    load_file (ctags_init none) none = .ret .falseV none [] := by
  intro st
  exact ⟨rfl, rfl⟩

/-- C6 (amended): `load_file` returns `False` exactly when the file cannot
be read, and on every successful load it falls off its end returning `None`;
both possible return values are falsy, so the return value never signals
success with a truthy value. -/
theorem load_returns_only_falsy :
    (∀ st : Option (List Tag), load_file st none = .ret .falseV st []) ∧
    (∀ (st : Option (List Tag)) (lines : List String),
      (∃ e, load_file st (some lines) = .raised e st) ∨
      ∃ tags ds, load_file st (some lines) = .ret .noneV (some tags) ds) ∧
    (∀ (st : Option (List Tag)) (file : Option (List String)) (v : PyVal)
      (st2 : Option (List Tag)) (ds : List String),
      load_file st file = .ret v st2 ds → pyTruthy v = false) := by
  refine ⟨fun st => rfl, fun st lines => load_file_some_cases st lines, ?_⟩
  intro st file v st2 ds h
  cases v <;> rfl

/-- C6 counterexample: loading an empty tag file succeeds and returns
`None`, whose truthiness is false -- not a truthy success value. -/
theorem load_success_falsy_cex :
    load_file none (some []) = .ret .noneV (some []) [] ∧ pyTruthy .noneV = false :=
  ⟨rfl, rfl⟩

/-- C7: a `key:` token with an empty value resolves to the record's own file
when the key is `file` and to the `None` marker (distinguishable from the
empty string) otherwise; a single-character token without `:` sets the
`kind` field to that character. -/
theorem empty_value_and_kind_tokens (tagfile : String) (key : List Char) (c : Char) :
    (breakAt ':' key = none →
      parseFieldToken tagfile (key ++ [':']) =
        if String.mk key = "file" then some (String.mk key, some tagfile)
        else some (String.mk key, none)) ∧
    ((none : Option String) ≠ some "") ∧
    (c ≠ ':' → parseFieldToken tagfile [c] = some ("kind", some (String.mk [c]))) := by
  refine ⟨fun hk => ?_, by simp, fun hc => ?_⟩
  · unfold parseFieldToken
    rw [breakAt_append_sep hk]
    show (if ([] : List Char).isEmpty then
        if String.mk key == "file" then some (String.mk key, some tagfile)
        else some (String.mk key, none)
      else some (String.mk key, some (String.mk []))) =
      if String.mk key = "file" then some (String.mk key, some tagfile)
      else some (String.mk key, none)
    by_cases hf : String.mk key = "file"
    · simp [hf]
    · simp [hf]
  · unfold parseFieldToken
    have hb : breakAt ':' [c] = none := by
      simp [breakAt, hc]
    rw [hb]
    exact rfl

/-- C8: with the symbol omitted, `get_definitions` returns the resident
collection itself -- every successfully parsed record, unfiltered, in
original file order, one per valid (non-skipped) line -- and on an empty tag
file the load succeeds with the empty collection. -/
theorem get_definitions_none_all (st : Option (List Tag)) (lines : List String)
    (tags : List Tag) (ds : List String) :
    (load_file st (some lines) = .ret .noneV (some tags) ds →
      get_definitions (some tags) none = .ok (some tags) ∧
      tags.length =
        ((lines.map fun s => pyStrip s.data).filter fun l => !skipLineB l).length) ∧
    load_file st (some []) = .ret .noneV (some []) [] ∧
    get_definitions (some []) none = .ok (some []) := by
  refine ⟨fun h => ⟨rfl, processLines_length (load_file_some_inv h)⟩, rfl, rfl⟩

/-- C9: a field token that is neither `key:value` nor a single character is
skipped with a diagnostic while the rest of the fields survive, and the
record is still produced -- shown concretely for the spec's scenario E line
`foo\tbar.py\taddr\tbadtoken`, which loads without any exception. -/
theorem malformed_field_token_nonfatal (tagfile blob : String) (toks : List (List Char)) :
    ((∃ tok ∈ toks, parseFieldToken tagfile tok = none) →
      (parseFieldsAux tagfile blob [] [] toks).2 ≠ []) ∧
    (parseFieldsAux tagfile blob [] [] toks).1 =
      (parseFieldsAux tagfile blob [] []
        (toks.filter fun tok => (parseFieldToken tagfile tok).isSome)).1 ∧
    load_file none (some ["foo\tbar.py\taddr\tbadtoken"]) =
      .ret .noneV (some [⟨"foo", "bar.py", 0, "addr", []⟩]) ["badtoken"] := by
  refine ⟨?_, parseFieldsAux_fields tagfile blob toks [] [] [], by decide⟩
  rintro ⟨tok, hmem, hnone⟩
  have htok : tok ∈ toks.filter fun tk => (parseFieldToken tagfile tk).isNone :=
    List.mem_filter.mpr ⟨hmem, by simp [hnone]⟩
  intro hemp
  rw [parseFieldsAux_diags, List.nil_append] at hemp
  rw [List.map_eq_nil_iff] at hemp
  rw [hemp] at htok
  exact List.not_mem_nil tok htok

/-- C10: an index constructed without a tags file keeps the `None` marker as
its resident collection: `get_definitions()` returns that marker rather than
an empty sequence, while `get_definitions(symbol)` and `autocomplete` both
raise a `TypeError` iterating it. -/
theorem unloaded_index_null_marker : ∀ (s p : String),
    ctags_init none = none ∧
    get_definitions (ctags_init none) none = .ok none ∧
    get_definitions (ctags_init none) (some s) = .error .typeError ∧
    autocomplete (ctags_init none) p = .error .typeError := by
  intro s p
  exact ⟨rfl, rfl, rfl, rfl⟩

end Ctags
